import Mathlib

/-!
Shallow embedding of the `vibe-train-modal-sandbox` indexing pipeline and
worker-process session client, with theorems settling the specification's
claims against the code.

Embedded sources:
- `src/agents/index_pipeline/pipeline.py` (`IndexPipeline`: `reindex`, `_scan`,
  `_embed`, `_make_batches`, `_finalize`, `_empty_result`, `_fingerprint`,
  `_load_manifest`)
- `src/agents/index_pipeline/embed_worker.py` (`EmbedWorker.embed`,
  `_update_manifest`)
- `src/agents/index_pipeline/finalize.py` (`finalize_index`,
  `_reset_collection`, `_merge_worker_manifests`, `_collection_count`)
- `src/agents/slackbot/core/clients/rag_client.py` (`RagClient.query`,
  `_reset`, `_read_response`)

The `src/agents/rag_agent/indexer_workers` tree (`pipeline/scan.py`,
`pipeline/embed.py`, `pipeline/finalize.py`, `embed_worker.py`, `finalize.py`)
and `src/agents/slackbot/services/rag_client.py` are behaviourally identical
copies of the corresponding files above for everything the claims touch; one
model covers both trees.
-/

namespace VibeTrain

/-! ## Python dicts

Manifests are Python `dict[str, str]` values (JSON objects).  We embed a dict
as its list of entries in insertion order; real manifests have unique keys. -/

/-- A Python `dict[str, str]`, as its entry list in insertion order. -/
abbrev Dict := List (String × String)

/-- Python `d.get(k)`: the value of the first entry with the given key. -/
def dictGet : Dict → String → Option String
  | [], _ => none
  | (k, v) :: m, key => if key = k then some v else dictGet m key

/-- Keys of a dict, in insertion order. -/
def dictKeys (m : Dict) : List String := m.map Prod.fst

/-- Python `d[k] = v`: replace the value in place if the key exists, else
append a new entry (CPython preserves insertion order). -/
def dictSet (m : Dict) (k v : String) : Dict :=
  if k ∈ dictKeys m then
    m.map fun p => if p.1 = k then (k, v) else p
  else
    m ++ [(k, v)]

/-- Python `m.update(p)`: overlay the entries of `p` onto `m`, in `p`'s
order. -/
def dictUpdate (m p : Dict) : Dict :=
  p.foldl (fun acc kv => dictSet acc kv.1 kv.2) m

theorem dictGet_eq_none_of_not_mem (m : Dict) (key : String)
    (h : key ∉ dictKeys m) : dictGet m key = none := by
  induction m with
  | nil => rfl
  | cons kv m ih =>
    obtain ⟨k, v⟩ := kv
    simp only [dictKeys, List.map_cons, List.mem_cons] at h
    push_neg at h
    simp only [dictGet, if_neg h.1]
    exact ih h.2

theorem mem_dictKeys_of_dictGet (m : Dict) (key : String) (v : String)
    (h : dictGet m key = some v) : key ∈ dictKeys m := by
  induction m with
  | nil => simp [dictGet] at h
  | cons kv m ih =>
    obtain ⟨k, w⟩ := kv
    simp only [dictGet] at h
    by_cases hk : key = k
    · simp [dictKeys, hk]
    · simp only [if_neg hk] at h
      simp only [dictKeys, List.map_cons, List.mem_cons]
      exact Or.inr (ih h)

theorem dictGet_map_replace_ne (m : Dict) (k v key : String) (hne : key ≠ k) :
    dictGet (m.map fun p => if p.1 = k then (k, v) else p) key
      = dictGet m key := by
  induction m with
  | nil => rfl
  | cons kv m ih =>
    obtain ⟨a, b⟩ := kv
    by_cases ha : a = k
    · subst ha
      simp only [List.map_cons, if_true]
      simp only [dictGet, if_neg hne]
      exact ih
    · simp only [List.map_cons]
      rw [show (if (a, b).1 = k then (k, v) else (a, b)) = (a, b) by simp [ha]]
      simp only [dictGet]
      by_cases hkey : key = a
      · simp [hkey]
      · simp only [if_neg hkey]
        exact ih

theorem dictGet_map_replace_mem (m : Dict) (k v : String)
    (hk : k ∈ dictKeys m) :
    dictGet (m.map fun p => if p.1 = k then (k, v) else p) k = some v := by
  induction m with
  | nil => simp [dictKeys] at hk
  | cons kv m ih =>
    obtain ⟨a, b⟩ := kv
    by_cases ha : a = k
    · subst ha
      simp only [List.map_cons, if_true]
      simp [dictGet]
    · simp only [dictKeys, List.map_cons, List.mem_cons] at hk
      rcases hk with h | h
      · exact absurd h.symm ha
      · simp only [List.map_cons]
        rw [show (if (a, b).1 = k then (k, v) else (a, b)) = (a, b) by simp [ha]]
        simp only [dictGet, if_neg (fun he : k = a => ha he.symm)]
        exact ih h

theorem dictGet_dictSet (m : Dict) (k v key : String) :
    dictGet (dictSet m k v) key = if key = k then some v else dictGet m key := by
  unfold dictSet
  by_cases hk : k ∈ dictKeys m
  · simp only [if_pos hk]
    by_cases hkey : key = k
    · subst hkey
      simp [dictGet_map_replace_mem m key v hk]
    · simp [if_neg hkey, dictGet_map_replace_ne m k v key hkey]
  · simp only [if_neg hk]
    induction m with
    | nil => simp [dictGet]
    | cons kv m ih =>
      obtain ⟨a, b⟩ := kv
      simp only [dictKeys, List.map_cons, List.mem_cons] at hk
      push_neg at hk
      simp only [List.cons_append, dictGet]
      by_cases hkey : key = a
      · subst hkey
        have hkk : key ≠ k := fun h => hk.1 h.symm
        simp [hkk]
      · simp only [if_neg hkey]
        exact ih hk.2

theorem dictGet_dictUpdate_none (m p : Dict) (key : String)
    (hp : (dictKeys p).Nodup) (h : dictGet p key = none) :
    dictGet (dictUpdate m p) key = dictGet m key := by
  induction p generalizing m with
  | nil => rfl
  | cons kv p ih =>
    obtain ⟨k, w⟩ := kv
    simp only [dictKeys, List.map_cons, List.nodup_cons] at hp
    simp only [dictGet] at h
    by_cases hkey : key = k
    · simp [if_pos hkey] at h
    · simp only [if_neg hkey] at h
      simp only [dictUpdate, List.foldl_cons]
      have := ih (dictSet m k w) hp.2 h
      simpa [dictGet_dictSet, if_neg hkey] using this

theorem dictGet_dictUpdate_some (m p : Dict) (key v : String)
    (hp : (dictKeys p).Nodup) (h : dictGet p key = some v) :
    dictGet (dictUpdate m p) key = some v := by
  induction p generalizing m with
  | nil => simp [dictGet] at h
  | cons kv p ih =>
    obtain ⟨k, w⟩ := kv
    simp only [dictKeys, List.map_cons, List.nodup_cons] at hp
    simp only [dictUpdate, List.foldl_cons]
    by_cases hkey : key = k
    · subst hkey
      simp only [dictGet, if_true, Option.some.injEq] at h
      subst h
      have hnone : dictGet p key = none :=
        dictGet_eq_none_of_not_mem p key hp.1
      have := dictGet_dictUpdate_none (dictSet m key w) p key hp.2 hnone
      simpa [dictGet_dictSet] using this
    · simp only [dictGet, if_neg hkey] at h
      exact ih (dictSet m k w) hp.2 h

/-! ## Documents, fingerprints, manifest files

`IndexPipeline._fingerprint` / `ScanPhase.run`: a document's fingerprint is
the string `f"{stat.st_mtime_ns}:{stat.st_size}"`.  A manifest file on disk
is either absent, unparsable, or a parsed JSON object
(`IndexPipeline._load_manifest` returns `{}` for the first two). -/

/-- A regular file in the document directory, with the `stat` fields the
pipeline reads. -/
structure Doc where
  name : String
  mtimeNs : Nat
  size : Nat
deriving DecidableEq, Repr

/-- `IndexPipeline._fingerprint`: `f"{stat.st_mtime_ns}:{stat.st_size}"`. -/
def fingerprint (d : Doc) : String :=
  toString d.mtimeNs ++ ":" ++ toString d.size

/-- A JSON file on disk: missing, present but unparsable, or parsed. -/
inductive FileState where
  | absent
  | corrupt
  | good (m : Dict)
deriving DecidableEq, Repr

/-- `IndexPipeline._load_manifest` (and the `try/except` manifest load of
`_merge_worker_manifests`): `json.loads` of the file, `{}` on any
exception, which covers both a missing and an unparsable file. -/
def loadManifest : FileState → Dict
  | FileState.good m => m
  | _ => []

/-! ## Scan phase

`IndexPipeline._scan` (= `ScanPhase.run`): reload the volume, return `[]` if
the document directory does not exist, else keep every regular file whose
manifest fingerprint is missing or different (all files when forced).  The
source sorts the directory listing by path; we take `docs` to already be
that sorted listing of regular files, with `none` meaning the directory does
not exist. -/

def scanPhase (force : Bool) (docs : Option (List Doc))
    (manifestFile : FileState) : List Doc :=
  match docs with
  | none => []
  | some ds =>
    let manifest := loadManifest manifestFile
    ds.filter fun d =>
      force || decide (dictGet manifest d.name ≠ some (fingerprint d))

/-! ## Batch partitioning

`IndexPipeline._make_batches` (= the partitioning in `EmbedPhase.run`):
`chunk_size = math.ceil(len(files) / N_WORKERS)`;
`batches = [files[i : i + chunk_size] for i in range(0, len(files), chunk_size)]`;
`worker_ids = list(range(len(batches)))`.  (For an empty file list Python's
`range(0, 0, 0)` would raise, but the pipeline short-circuits before calling
`_make_batches` with no files; the model returns no batches there.) -/

/-- `math.ceil(a / b)` on naturals (`b > 0`). -/
def ceilDiv (a b : Nat) : Nat := (a + b - 1) / b

/-- The slicing loop, fuelled by the input length so that the recursion is
structural (each step consumes at least one element when `0 < cs`). -/
def sliceBatchesAux {α : Type} (cs : Nat) : Nat → List α → List (List α)
  | _, [] => []
  | 0, _ :: _ => []
  | fuel + 1, x :: xs => (x :: xs).take cs :: sliceBatchesAux cs fuel ((x :: xs).drop cs)

/-- The slices `files[i : i + cs]` for `i = 0, cs, 2*cs, ...` (`cs = 0`, for
which Python's `range` with step 0 would raise, yields no slices and is
never reached by the pipeline). -/
def sliceBatches {α : Type} (cs : Nat) (l : List α) : List (List α) :=
  if cs = 0 then [] else sliceBatchesAux cs l.length l

def makeBatches {α : Type} (nWorkers : Nat) (files : List α) :
    List (List α) × List Nat :=
  let chunkSize := ceilDiv files.length nWorkers
  let batches := sliceBatches chunkSize files
  (batches, List.range batches.length)

/-- The partial-manifest filename derived from a worker identity
(`f"manifest-worker-{worker_id}.json"`). -/
def workerFileName (workerId : Nat) : String :=
  "manifest-worker-" ++ toString workerId ++ ".json"

theorem sliceBatchesAux_flatten {α : Type} (cs : Nat) (hcs : 0 < cs) :
    ∀ (fuel : Nat) (l : List α), l.length ≤ fuel →
      (sliceBatchesAux cs fuel l).flatten = l := by
  intro fuel
  induction fuel with
  | zero =>
    intro l hl
    cases l with
    | nil => rfl
    | cons x xs => simp at hl
  | succ fuel ih =>
    intro l hl
    cases l with
    | nil => rfl
    | cons x xs =>
      simp only [sliceBatchesAux, List.flatten_cons]
      rw [ih ((x :: xs).drop cs)
        (by simp only [List.length_drop, List.length_cons] at hl ⊢; omega)]
      exact List.take_append_drop cs (x :: xs)

theorem sliceBatches_flatten {α : Type} (cs : Nat) (l : List α) :
    0 < cs → (sliceBatches cs l).flatten = l := by
  intro hcs
  unfold sliceBatches
  rw [if_neg (by omega)]
  exact sliceBatchesAux_flatten cs hcs l.length l (Nat.le_refl _)

theorem sliceBatchesAux_mem {α : Type} (cs : Nat) (hcs : 0 < cs) :
    ∀ (fuel : Nat) (l : List α) (b : List α),
      b ∈ sliceBatchesAux cs fuel l → b.length ≤ cs ∧ b ≠ [] := by
  intro fuel
  induction fuel with
  | zero =>
    intro l b hb
    cases l with
    | nil => simp [sliceBatchesAux] at hb
    | cons x xs => simp [sliceBatchesAux] at hb
  | succ fuel ih =>
    intro l b hb
    cases l with
    | nil => simp [sliceBatchesAux] at hb
    | cons x xs =>
      simp only [sliceBatchesAux, List.mem_cons] at hb
      rcases hb with hb | hb
      · subst hb
        refine ⟨by simpa using List.length_take_le cs (x :: xs), ?_⟩
        cases cs with
        | zero => omega
        | succ cs => simp
      · exact ih _ b hb

theorem sliceBatches_mem {α : Type} (cs : Nat) (l : List α) (b : List α)
    (hb : b ∈ sliceBatches cs l) : b.length ≤ cs ∧ b ≠ [] := by
  unfold sliceBatches at hb
  by_cases hcs : cs = 0
  · rw [if_pos hcs] at hb
    simp at hb
  · rw [if_neg hcs] at hb
    exact sliceBatchesAux_mem cs (by omega) l.length l b hb

theorem sliceBatchesAux_length {α : Type} (cs : Nat) (hcs : 0 < cs) :
    ∀ (fuel : Nat) (l : List α), l.length ≤ fuel → l ≠ [] →
      (sliceBatchesAux cs fuel l).length = ceilDiv l.length cs := by
  intro fuel
  induction fuel with
  | zero =>
    intro l hl hne
    cases l with
    | nil => exact absurd rfl hne
    | cons x xs => simp at hl
  | succ fuel ih =>
    intro l hl hne
    cases l with
    | nil => exact absurd rfl hne
    | cons x xs =>
      by_cases hrest : (x :: xs).drop cs = []
      · have hxs : xs.length + 1 ≤ cs := by
          have h3 := List.drop_eq_nil_iff.mp hrest
          simp only [List.length_cons] at h3
          exact h3
        simp only [sliceBatchesAux, hrest, List.length_cons, List.length_nil]
        have hone : ceilDiv (xs.length + 1) cs = 1 := by
          unfold ceilDiv
          apply Nat.div_eq_of_lt_le
          · omega
          · omega
        simp [hone]
      · have hlen : cs < xs.length + 1 := by
          have h3 := List.drop_eq_nil_iff.not.mp hrest
          simp only [List.length_cons] at h3
          omega
        have ihv := ih ((x :: xs).drop cs)
          (by simp only [List.length_drop, List.length_cons] at hl ⊢; omega)
          hrest
        simp only [sliceBatchesAux, List.length_cons, ihv, List.length_drop,
          List.length_cons]
        unfold ceilDiv
        have h1 : xs.length + 1 - cs + cs - 1 = xs.length := by omega
        have h2 : xs.length + 1 + cs - 1 = xs.length + cs := by omega
        rw [h1, h2, ← Nat.add_div_right xs.length hcs]

theorem sliceBatches_length {α : Type} (cs : Nat) (l : List α)
    (hcs : 0 < cs) (hl : l ≠ []) :
    (sliceBatches cs l).length = ceilDiv l.length cs := by
  unfold sliceBatches
  rw [if_neg (by omega)]
  exact sliceBatchesAux_length cs hcs l.length l (Nat.le_refl _) hl

theorem le_mul_ceilDiv (len n : Nat) (hn : 0 < n) :
    len ≤ n * ceilDiv len n := by
  have h1 := Nat.div_add_mod (len + n - 1) n
  have h2 : (len + n - 1) % n < n := Nat.mod_lt _ hn
  unfold ceilDiv
  omega

theorem ceilDiv_ceilDiv_le (len n : Nat) (hn : 0 < n) (hlen : 0 < len) :
    ceilDiv len (ceilDiv len n) ≤ n := by
  have hcs : 0 < ceilDiv len n := by
    unfold ceilDiv
    apply Nat.div_pos
    · omega
    · exact hn
  have hkey : len ≤ n * ceilDiv len n := le_mul_ceilDiv len n hn
  by_contra hc
  push_neg at hc
  have h3 := Nat.div_add_mod (len + ceilDiv len n - 1) (ceilDiv len n)
  have h4 : (len + ceilDiv len n - 1) % ceilDiv len n < ceilDiv len n :=
    Nat.mod_lt _ hcs
  have h5 : ceilDiv len n * (n + 1) ≤
      ceilDiv len n * ((len + ceilDiv len n - 1) / ceilDiv len n) := by
    apply Nat.mul_le_mul_left
    have : ceilDiv len (ceilDiv len n) = (len + ceilDiv len n - 1) / ceilDiv len n := rfl
    omega
  have h6 : ceilDiv len n * (n + 1) = n * ceilDiv len n + ceilDiv len n := by ring
  unfold ceilDiv at *
  omega

/-! ## Chunk store

The ChromaDB collection, reduced to what the claims observe: the set of
stored chunk ids (in insertion order).  `upsert` inserts new ids and
replaces existing ones in place; `collection.count()` is the number of
stored ids.  `none` models "collection does not exist" (dropped / never
created). -/

abbrev Store := List String

/-- `collection.upsert(ids, ...)`: insert-or-replace by chunk id. -/
def upsert (s : Store) (ids : List String) : Store :=
  ids.foldl (fun acc i => if i ∈ acc then acc else acc ++ [i]) s

/-- `_collection_count`: `get_collection(...).count()`, with the
`except: return 0` branch when the collection does not exist. -/
def collectionCount : Option Store → Nat
  | none => 0
  | some s => s.length

/-! ## Embed worker

`EmbedWorker.embed` (src/agents/index_pipeline/embed_worker.py): per file,
parse/chunk/embed/upsert, then `_update_manifest` records
`{path.name: fingerprint}` in the worker's in-memory dict and writes the
whole dict to `manifest-worker-{worker_id}.json`.  The parser, splitter and
embedder are external capabilities (llama_index / HF model); the model
takes the chunk ids they produce per document as an environment function,
and lets the environment say which documents raise during processing. -/

structure WorkerEnv where
  chunksOf : Doc → List String
  fails : Doc → Bool

/-- The `for file_path in file_paths` loop of `EmbedWorker.embed`, threading
the collection, the in-memory `_worker_manifest` dict, the worker file
content on disk (`none` until first written), and the running chunk total.
A document whose processing raises propagates the exception; documents
after it are not reached, and `_update_manifest` is not called for it. -/
def embedDocsGo (env : WorkerEnv) :
    List Doc → Option Store → Dict → Option Dict → Nat →
      Option Store × Option Dict × Except Unit Nat
  | [], c, _wm, wfile, total => (c, wfile, Except.ok total)
  | d :: rest, c, wm, wfile, total =>
    if env.fails d then (c, wfile, Except.error ())
    else
      let c2 := some (upsert (c.getD []) (env.chunksOf d))
      let wm2 := dictSet wm d.name (fingerprint d)
      embedDocsGo env rest c2 wm2 (some wm2) (total + (env.chunksOf d).length)

/-- One `EmbedWorker.embed(file_paths, worker_id)` invocation.  The worker's
`_setup` has already run `get_or_create_collection` (so an absent collection
becomes an empty one), and `embed` resets `_worker_manifest = {}` before the
loop.  Returns the collection, the worker's partial-manifest file content
(`none` when no document completed, hence no write), and `(worker_id, total)`
or the propagated exception. -/
def embedWorker (env : WorkerEnv) (files : List Doc) (c : Option Store) :
    Option Store × Option Dict × Except Unit Nat :=
  embedDocsGo env files (some (c.getD [])) [] none 0

/-! ## Files on disk and the world state -/

/-- The manifest files in the Chroma directory: `manifest.json` plus the
`manifest-worker-*.json` files in the sorted order `glob` yields them.
Worker-file entries are files that exist on disk (parsed or unparsable). -/
structure FS where
  manifestFile : FileState
  workerFiles : List (String × FileState)
deriving DecidableEq, Repr

structure World where
  fs : FS
  collection : Option Store
deriving DecidableEq, Repr

/-- `path.write_text(...)`: overwrite the named file or create it. -/
def writeFile (wfs : List (String × FileState)) (name : String)
    (content : Dict) : List (String × FileState) :=
  if name ∈ wfs.map Prod.fst then
    wfs.map fun p => if p.1 = name then (name, FileState.good content) else p
  else
    wfs ++ [(name, FileState.good content)]

/-! ## Embed phase

`IndexPipeline._embed` (= `EmbedPhase.run`): dispatch
`EmbedWorker().embed.map(batches, worker_ids, return_exceptions=True)` and
fold the results: an exception result is printed and skipped, a success
`(wid, count)` adds to the running total.  The workers run in parallel in
separate containers; each owns its own partial-manifest file, and their
collection upserts target disjoint chunk-id sets per batch — the model runs
them in batch order. -/

def runWorkers (env : WorkerEnv) :
    List (List Doc × Nat) → World → World × List (Except Unit (Nat × Nat))
  | [], w => (w, [])
  | (batch, wid) :: rest, w =>
    let r := embedWorker env batch w.collection
    let fs2 : FS :=
      match r.2.1 with
      | none => w.fs
      | some wm =>
        { manifestFile := w.fs.manifestFile,
          workerFiles := writeFile w.fs.workerFiles (workerFileName wid) wm }
    let w2 : World := { fs := fs2, collection := r.1 }
    let rec2 := runWorkers env rest w2
    (rec2.1,
      (match r.2.2 with
        | Except.ok total => Except.ok (wid, total)
        | Except.error e => Except.error e) :: rec2.2)

/-- The result-consuming loop of `_embed`: the success total and the number
of batches reported as failed. -/
def embedTotals (results : List (Except Unit (Nat × Nat))) : Nat × Nat :=
  results.foldl
    (fun acc r =>
      match r with
      | Except.error _ => (acc.1, acc.2 + 1)
      | Except.ok pr => (acc.1 + pr.2, acc.2))
    (0, 0)

/-! ## Finalize

`finalize_index` (src/agents/index_pipeline/finalize.py). -/

/-- `_reset_collection`: `delete_collection` (tolerating "already absent")
and `unlink` every file matching `manifest*.json` — a glob that matches both
`manifest.json` and every `manifest-worker-*.json` file. -/
def resetCollection (_w : World) : World :=
  { fs := { manifestFile := FileState.absent, workerFiles := [] },
    collection := none }

structure MergeResult where
  manifest : Dict
  fsAfter : FS

/-- `_merge_worker_manifests`: load `manifest.json` (`{}` on absence or
parse failure); for each `manifest-worker-*.json` in glob order,
`manifest.update(json.loads(wf.read_text())); wf.unlink()` inside
`try/except: pass` — an unparsable file is skipped and kept, a parsed file
is overlaid and deleted; finally write the merged dict to `manifest.json`. -/
def mergeWorkerManifests (fs : FS) : MergeResult :=
  let m0 := loadManifest fs.manifestFile
  let step := fun (acc : Dict × List (String × FileState)) (wf : String × FileState) =>
    match wf.2 with
    | FileState.good wm => (dictUpdate acc.1 wm, acc.2)
    | st => (acc.1, acc.2 ++ [(wf.1, st)])
  let r := fs.workerFiles.foldl step (m0, [])
  { manifest := r.1,
    fsAfter := { manifestFile := FileState.good r.1, workerFiles := r.2 } }

structure FinalizeResult where
  world : World
  manifest : Dict
  total : Nat

/-- `finalize_index(force)`: when forced, `_reset_collection` first; then
merge the worker manifests; then report the collection count. -/
def finalize_index (force : Bool) (w : World) : FinalizeResult :=
  let w1 := if force then resetCollection w else w
  let r := mergeWorkerManifests w1.fs
  let w2 : World := { fs := r.fsAfter, collection := w1.collection }
  { world := w2, manifest := r.manifest, total := collectionCount w2.collection }

/-! ## Index pipeline -/

/-- The three user-facing outcomes of `IndexPipeline.reindex`: the two
distinct `_empty_result` messages, and the `finalize_index` summary
`"Indexed {total} chunks from {len(manifest)} file(s)."`. -/
inductive ReindexOutcome where
  | noDocuments
  | allIndexed
  | summary (chunks : Nat) (files : Nat)
deriving DecidableEq, Repr

/-- `IndexPipeline._empty_result`: missing directory → "No documents found";
else "All documents already indexed" iff some present file's name is a
manifest key. -/
def emptyResult (docs : Option (List Doc)) (manifestFile : FileState) :
    ReindexOutcome :=
  match docs with
  | none => ReindexOutcome.noDocuments
  | some ds =>
    let manifest := loadManifest manifestFile
    if ds.any (fun d => decide (d.name ∈ dictKeys manifest)) then
      ReindexOutcome.allIndexed
    else
      ReindexOutcome.noDocuments

structure PipelineEnv where
  env : WorkerEnv
  nWorkers : Nat

/-- `IndexPipeline.reindex(force)` under the single-flight lock: scan; on an
empty work list return `_empty_result()` without touching anything; else
embed across workers and finalize.  (`reload_fn` is not claim-relevant and
is omitted; the status callback only receives progress strings.) -/
def reindex (pe : PipelineEnv) (force : Bool) (docs : Option (List Doc))
    (w : World) : World × ReindexOutcome :=
  let files := scanPhase force docs w.fs.manifestFile
  if files = [] then (w, emptyResult docs w.fs.manifestFile)
  else
    let bi := makeBatches pe.nWorkers files
    let r1 := runWorkers pe.env (bi.1.zip bi.2) w
    let fr := finalize_index force r1.1
    (fr.world, ReindexOutcome.summary fr.total fr.manifest.length)

/-! ## Worker-process session client (`RagClient`)

`src/agents/slackbot/core/clients/rag_client.py` (the
`services/rag_client.py` copy has the same `query` retry structure and the
same `_read_and_parse` body). -/

/-- Observable events of one `RagClient.query` call: the
`_ensure_sandbox` + `stdin.write` + `stdin.drain` step of a loop attempt
with its outcome, a `_reset()` call, and the `_read_response` read with its
outcome. -/
inductive QStep where
  | ensureSend (attempt : Nat) (ok : Bool)
  | reset
  | recv (ok : Bool)
deriving DecidableEq, Repr

/-- Environment of one `query` call: whether attempt `k`'s
ensure-connect-send steps all succeed, and whether reading the response
succeeds. -/
structure QueryEnv where
  ensureSendOk : Nat → Bool
  recvOk : Bool

/-- The `for attempt in range(2)` loop of `RagClient.query`: try
`_ensure_sandbox(); stdin.write(msg); stdin.drain()` and break on success;
on any exception print it, `_reset()`, and re-raise when `attempt == 1`.
Returns the event trace and whether the loop broke out with a successful
send (`false` means the second failure re-raised). -/
def sendLoop (env : QueryEnv) : List Nat → List QStep → List QStep × Bool
  | [], tr => (tr, true)
  | a :: rest, tr =>
    if env.ensureSendOk a then (tr ++ [QStep.ensureSend a true], true)
    else
      let tr2 := tr ++ [QStep.ensureSend a false, QStep.reset]
      if a = 1 then (tr2, false) else sendLoop env rest tr2

/-- `RagClient.query` under its lock: run the retry loop over `range(2)`;
when it broke out, `self._read_response()` runs exactly once — outside the
`try` — and its failure propagates to the caller with no reset and no
retry.  Returns the event trace and whether the call returned normally. -/
def queryRun (env : QueryEnv) : List QStep × Bool :=
  let lr := sendLoop env [0, 1] []
  if lr.2 then (lr.1 ++ [QStep.recv env.recvOk], env.recvOk) else lr

/-! ## Response parsing (`RagClient._read_response`)

`_read_response` buffers stdout lines until one contains the sentinel
`---END_TURN---`, keeps the stripped content before the sentinel on that
line when non-empty, joins the lines with a newline and strips the result,
then extracts `[OUTPUT_FILE:<path>]` markers with the regular expression
`\[OUTPUT_FILE:(.+?)\]` (`findall` for the list, `sub` with the empty
string for the display text).  Strings are modelled as `List Char`. -/

/-- Python `str.strip()` whitespace. -/
def pyIsSpace (c : Char) : Bool :=
  c = ' ' || c = '\t' || c = '\n' || c = '\r' || c = '\x0b' || c = '\x0c'

/-- Python `s.strip()`. -/
def pyStrip (cs : List Char) : List Char :=
  ((cs.dropWhile pyIsSpace).reverse.dropWhile pyIsSpace).reverse

/-- The literal part `\[OUTPUT_FILE:` of the marker pattern. -/
def markerHead : List Char := "[OUTPUT_FILE:".toList

/-- The sentinel `RagClient._END_TURN`. -/
def endTurn : List Char := "---END_TURN---".toList

/-- Continuation of the lazy `(.+?)\]` match: the capture grows one
non-newline character at a time until the next character is `]`. -/
def scanCapture : List Char → List Char → Option (List Char × List Char)
  | _, [] => none
  | acc, c :: rest =>
    if c = ']' then some (acc.reverse, rest)
    else if c = '\n' then none
    else scanCapture (c :: acc) rest

/-- The lazy `(.+?)\]` match right after the marker head: the capture is
the shortest non-empty run of non-newline characters followed by `]`.
Returns the capture and the input remaining after the closing `]`. -/
def matchMarker : List Char → Option (List Char × List Char)
  | [] => none
  | c :: rest => if c = '\n' then none else scanCapture [c] rest

theorem scanCapture_length (acc l cap rest : List Char)
    (h : scanCapture acc l = some (cap, rest)) : rest.length < l.length := by
  induction l generalizing acc with
  | nil => simp [scanCapture] at h
  | cons c cs ih =>
    simp only [scanCapture] at h
    by_cases hc : c = ']'
    · simp only [if_pos hc] at h
      injection h with h
      injection h with h1 h2
      subst h2
      simp
    · simp only [if_neg hc] at h
      by_cases hn : c = '\n'
      · simp [if_pos hn] at h
      · simp only [if_neg hn] at h
        have := ih (c :: acc) h
        simp only [List.length_cons]
        omega

theorem matchMarker_length (l cap rest : List Char)
    (h : matchMarker l = some (cap, rest)) : rest.length < l.length := by
  cases l with
  | nil => simp [matchMarker] at h
  | cons c cs =>
    simp only [matchMarker] at h
    by_cases hn : c = '\n'
    · simp [if_pos hn] at h
    · simp only [if_neg hn] at h
      have := scanCapture_length [c] cs cap rest h
      simp only [List.length_cons]
      omega

/-- The `findall` scan, fuelled by the input length so the recursion is
structural: every step consumes at least one character
(`matchMarker_length` shows a match consumes strictly more than the
drop of the marker head). -/
def findOutputFilesAux : Nat → List Char → List (List Char)
  | _, [] => []
  | 0, _ :: _ => []
  | fuel + 1, c :: cs =>
    if markerHead.isPrefixOf (c :: cs) then
      match matchMarker ((c :: cs).drop markerHead.length) with
      | some pr => pr.1 :: findOutputFilesAux fuel pr.2
      | none => findOutputFilesAux fuel cs
    else findOutputFilesAux fuel cs

/-- `re.findall(r"\[OUTPUT_FILE:(.+?)\]", text)`: scan left to right; at a
position where the head matches and the lazy capture closes, emit the
capture and continue after the match; otherwise advance one character. -/
def findOutputFiles (l : List Char) : List (List Char) :=
  findOutputFilesAux l.length l

/-- The `sub` scan with the same fuel discipline. -/
def stripOutputFilesAux : Nat → List Char → List Char
  | _, [] => []
  | 0, l => l
  | fuel + 1, c :: cs =>
    if markerHead.isPrefixOf (c :: cs) then
      match matchMarker ((c :: cs).drop markerHead.length) with
      | some pr => stripOutputFilesAux fuel pr.2
      | none => c :: stripOutputFilesAux fuel cs
    else c :: stripOutputFilesAux fuel cs

/-- `re.sub(r"\[OUTPUT_FILE:(.+?)\]", "", text)`: same scan, removing each
match and keeping every other character. -/
def stripOutputFiles (l : List Char) : List Char :=
  stripOutputFilesAux l.length l

/-- `line[: line.index(self._END_TURN)]` guarded by `self._END_TURN in
line`: the part of the line before the first sentinel occurrence, `none`
when the line does not contain the sentinel. -/
def beforeSentinel : List Char → Option (List Char)
  | [] => none
  | c :: cs =>
    if endTurn.isPrefixOf (c :: cs) then some []
    else (beforeSentinel cs).map (fun p => c :: p)

/-- The line-buffering loop of `_read_response`: append each stdout line
until one contains the sentinel; on that line keep the stripped content
before the sentinel if non-empty, then stop.  A stream that ends without a
sentinel simply ends the loop. -/
def collectLines : List (List Char) → List (List Char)
  | [] => []
  | l :: ls =>
    match beforeSentinel l with
    | some pre =>
      let content := pyStrip pre
      if content = [] then [] else [content]
    | none => l :: collectLines ls

/-- The structured response `RagClient._read_response` returns. -/
structure RagResponse where
  text : String
  output_files : List String
deriving DecidableEq, Repr

/-- `RagClient._read_response` over the stdout lines (each line as the
iterator yields it, trailing newline included): join the buffered lines
with a newline and strip; `findall` the markers; `sub` them away and strip
for the display text. -/
def readResponse (stdoutLines : List (List Char)) : RagResponse :=
  let lines := collectLines stdoutLines
  let text := pyStrip (List.intercalate (String.toList "\n") lines)
  let files := findOutputFiles text
  let display := pyStrip (stripOutputFiles text)
  { text := String.mk display, output_files := files.map String.mk }

/-! ## Decimal rendering of worker identities

Distinctness of partial-manifest filenames rests on the injectivity of the
decimal rendering `Nat.repr` used by the f-string
`f"manifest-worker-{worker_id}.json"`; we prove it via the value of the
digit string. -/

/-- The digit characters of `n`, most significant first (what
`Nat.toDigitsCore` produces given enough fuel). -/
def reprR (n : Nat) : List Char :=
  if h : n / 10 = 0 then [Nat.digitChar (n % 10)]
  else reprR (n / 10) ++ [Nat.digitChar (n % 10)]
termination_by n
decreasing_by
  have hn : n ≠ 0 := by
    rintro rfl
    simp at h
  exact Nat.div_lt_self (Nat.pos_of_ne_zero hn) (by omega)

theorem toDigitsCore_eq_reprR :
    ∀ (f n : Nat) (l : List Char), n < f →
      Nat.toDigitsCore 10 f n l = reprR n ++ l := by
  intro f
  induction f with
  | zero => intro n l h; omega
  | succ f ih =>
    intro n l h
    rw [show Nat.toDigitsCore 10 (f + 1) n l =
        (if n / 10 = 0 then Nat.digitChar (n % 10) :: l
         else Nat.toDigitsCore 10 f (n / 10) (Nat.digitChar (n % 10) :: l))
      from by simp [Nat.toDigitsCore]]
    by_cases h0 : n / 10 = 0
    · rw [if_pos h0, reprR, dif_pos h0]
      rfl
    · rw [if_neg h0, reprR, dif_neg h0]
      have hn : 0 < n := by
        rcases Nat.eq_zero_or_pos n with rfl | hp
        · simp at h0
        · exact hp
      have hlt : n / 10 < f := by
        have := Nat.div_lt_self hn (show 1 < 10 by omega)
        omega
      rw [ih (n / 10) (Nat.digitChar (n % 10) :: l) hlt]
      simp

/-- The value of a digit character produced by `Nat.digitChar`. -/
def charVal (c : Char) : Nat := c.toNat - 48

/-- The number a digit string denotes. -/
def valOfChars (cs : List Char) : Nat :=
  cs.foldl (fun a c => 10 * a + charVal c) 0

theorem charVal_digitChar : ∀ d : Nat, d < 10 → charVal (Nat.digitChar d) = d := by
  decide

theorem valOfChars_append_digit (l : List Char) (c : Char) :
    valOfChars (l ++ [c]) = 10 * valOfChars l + charVal c := by
  simp [valOfChars, List.foldl_append]

theorem valOfChars_reprR : ∀ n : Nat, valOfChars (reprR n) = n := by
  intro n
  induction n using reprR.induct with
  | case1 n h =>
    rw [reprR, dif_pos h]
    have hmod : n % 10 < 10 := Nat.mod_lt _ (by omega)
    have hlt : n < 10 := (Nat.div_eq_zero_iff (by omega)).mp h
    simp [valOfChars, charVal_digitChar _ hmod]
    omega
  | case2 n h ih =>
    rw [reprR, dif_neg h]
    rw [valOfChars_append_digit, ih,
        charVal_digitChar _ (Nat.mod_lt _ (by omega))]
    omega

theorem reprR_injective (m n : Nat) (h : reprR m = reprR n) : m = n := by
  have := congrArg valOfChars h
  rwa [valOfChars_reprR, valOfChars_reprR] at this

theorem natRepr_toList (n : Nat) : (Nat.repr n).toList = reprR n := by
  have : Nat.repr n = (Nat.toDigitsCore 10 (n + 1) n []).asString := rfl
  rw [this, toDigitsCore_eq_reprR (n + 1) n [] (by omega)]
  simp only [List.append_nil]
  rfl

theorem workerFileName_injective (i j : Nat)
    (h : workerFileName i = workerFileName j) : i = j := by
  have h1 := congrArg String.toList h
  have hshape : ∀ k : Nat, (workerFileName k).toList =
      String.toList "manifest-worker-" ++ reprR k ++ String.toList ".json" := by
    intro k
    show ("manifest-worker-" ++ toString k ++ ".json").data = _
    rw [String.data_append, String.data_append]
    have : (toString k).data = reprR k := natRepr_toList k
    rw [this]
    rfl
  rw [hshape i, hshape j] at h1
  apply reprR_injective
  have h2 := List.append_cancel_right h1
  exact List.append_cancel_left h2

/-! ## Worker partial-manifest contents

The dict a fully successful worker accumulates over a batch (`_update_manifest`
applied to each document in order, starting from the empty dict). -/

def foldDocs (m : Dict) (b : List Doc) : Dict :=
  b.foldl (fun acc d => dictSet acc d.name (fingerprint d)) m

def dictOfDocs (b : List Doc) : Dict := foldDocs [] b

theorem dictKeys_dictSet (m : Dict) (k v : String) :
    dictKeys (dictSet m k v) =
      if k ∈ dictKeys m then dictKeys m else dictKeys m ++ [k] := by
  unfold dictSet
  by_cases hk : k ∈ dictKeys m
  · simp only [if_pos hk]
    unfold dictKeys
    rw [List.map_map]
    apply List.map_congr_left
    intro p _
    by_cases hp : p.1 = k
    · simp [hp]
    · simp [hp]
  · simp only [if_neg hk]
    simp [dictKeys]

theorem foldDocs_get_not_mem (b : List Doc) (m : Dict) (key : String)
    (hk : key ∉ b.map Doc.name) :
    dictGet (foldDocs m b) key = dictGet m key := by
  induction b generalizing m with
  | nil => rfl
  | cons d b ih =>
    simp only [List.map_cons, List.mem_cons] at hk
    push_neg at hk
    simp only [foldDocs, List.foldl_cons]
    have := ih (dictSet m d.name (fingerprint d)) hk.2
    rw [show List.foldl (fun acc x => dictSet acc x.name (fingerprint x))
          (dictSet m d.name (fingerprint d)) b
        = foldDocs (dictSet m d.name (fingerprint d)) b from rfl] at *
    rw [this, dictGet_dictSet, if_neg hk.1]

theorem foldDocs_get_mem (b : List Doc) (m : Dict) (d : Doc)
    (hd : d ∈ b) (hnd : (b.map Doc.name).Nodup) :
    dictGet (foldDocs m b) d.name = some (fingerprint d) := by
  induction b generalizing m with
  | nil => simp at hd
  | cons d0 b ih =>
    simp only [List.map_cons, List.nodup_cons] at hnd
    simp only [foldDocs, List.foldl_cons]
    rcases List.mem_cons.mp hd with rfl | hmem
    · rw [show List.foldl (fun acc x => dictSet acc x.name (fingerprint x))
            (dictSet m d.name (fingerprint d)) b
          = foldDocs (dictSet m d.name (fingerprint d)) b from rfl]
      rw [foldDocs_get_not_mem b _ d.name hnd.1, dictGet_dictSet, if_pos rfl]
    · exact ih (dictSet m d0.name (fingerprint d0)) hmem hnd.2

theorem foldDocs_keys_nodup (b : List Doc) (m : Dict)
    (hm : (dictKeys m).Nodup) : (dictKeys (foldDocs m b)).Nodup := by
  induction b generalizing m with
  | nil => exact hm
  | cons d b ih =>
    simp only [foldDocs, List.foldl_cons]
    apply ih
    rw [dictKeys_dictSet]
    by_cases hk : d.name ∈ dictKeys m
    · simp [hk, hm]
    · simp only [if_neg hk]
      simp [List.nodup_append, hm, hk]

theorem dictOfDocs_get_mem (b : List Doc) (d : Doc) (hd : d ∈ b)
    (hnd : (b.map Doc.name).Nodup) :
    dictGet (dictOfDocs b) d.name = some (fingerprint d) :=
  foldDocs_get_mem b [] d hd hnd

theorem dictOfDocs_get_not_mem (b : List Doc) (key : String)
    (hk : key ∉ b.map Doc.name) : dictGet (dictOfDocs b) key = none :=
  foldDocs_get_not_mem b [] key hk

theorem dictOfDocs_keys_nodup (b : List Doc) :
    (dictKeys (dictOfDocs b)).Nodup :=
  foldDocs_keys_nodup b [] (by simp [dictKeys])

/-! ## Merge lemmas -/

/-- The parsed contents of a worker manifest file, `none` when unparsable. -/
def goodContent (wf : String × FileState) : Option Dict :=
  match wf.2 with
  | FileState.good m => some m
  | _ => none

/-- Whether a worker manifest file parses. -/
def isGoodFile : FileState → Bool
  | FileState.good _ => true
  | _ => false

theorem mergeWorkerManifests_foldl (wfs : List (String × FileState))
    (m : Dict) (kept : List (String × FileState)) :
    wfs.foldl
      (fun (acc : Dict × List (String × FileState)) wf =>
        match wf.2 with
        | FileState.good wm => (dictUpdate acc.1 wm, acc.2)
        | st => (acc.1, acc.2 ++ [(wf.1, st)]))
      (m, kept)
      = ((wfs.filterMap goodContent).foldl dictUpdate m,
         kept ++ wfs.filter (fun wf => !isGoodFile wf.2)) := by
  induction wfs generalizing m kept with
  | nil => simp
  | cons wf wfs ih =>
    obtain ⟨nm, st⟩ := wf
    cases st with
    | good wm =>
      simp only [List.foldl_cons, List.filterMap_cons, List.filter_cons]
      rw [ih]
      simp [goodContent, isGoodFile]
    | absent =>
      simp only [List.foldl_cons, List.filterMap_cons, List.filter_cons]
      rw [ih]
      simp [goodContent, isGoodFile]
    | corrupt =>
      simp only [List.foldl_cons, List.filterMap_cons, List.filter_cons]
      rw [ih]
      simp [goodContent, isGoodFile]

theorem mergeWorkerManifests_eq (fs : FS) :
    mergeWorkerManifests fs =
      { manifest :=
          (fs.workerFiles.filterMap goodContent).foldl dictUpdate
            (loadManifest fs.manifestFile),
        fsAfter :=
          { manifestFile := FileState.good
              ((fs.workerFiles.filterMap goodContent).foldl dictUpdate
                (loadManifest fs.manifestFile)),
            workerFiles :=
              fs.workerFiles.filter (fun wf => !isGoodFile wf.2) } } := by
  unfold mergeWorkerManifests
  dsimp only
  rw [mergeWorkerManifests_foldl]
  simp

theorem dictGet_mergeList_none (m0 : Dict) (l : List Dict) (key : String)
    (hnd : ∀ p ∈ l, (dictKeys p).Nodup)
    (hnone : ∀ p ∈ l, dictGet p key = none) :
    dictGet (l.foldl dictUpdate m0) key = dictGet m0 key := by
  induction l generalizing m0 with
  | nil => rfl
  | cons p l ih =>
    simp only [List.foldl_cons]
    rw [ih (dictUpdate m0 p)
          (fun q hq => hnd q (List.mem_cons_of_mem _ hq))
          (fun q hq => hnone q (List.mem_cons_of_mem _ hq))]
    exact dictGet_dictUpdate_none m0 p key (hnd p (List.mem_cons_self _ _))
      (hnone p (List.mem_cons_self _ _))

theorem dictGet_mergeList_some (m0 : Dict) (l1 : List Dict) (p : Dict)
    (l2 : List Dict) (key v : String)
    (hp : (dictKeys p).Nodup) (hnd2 : ∀ q ∈ l2, (dictKeys q).Nodup)
    (h1 : ∀ q ∈ l1, dictGet q key = none)
    (hv : dictGet p key = some v)
    (h2 : ∀ q ∈ l2, dictGet q key = none) :
    dictGet ((l1 ++ p :: l2).foldl dictUpdate m0) key = some v := by
  induction l1 generalizing m0 with
  | nil =>
    simp only [List.nil_append, List.foldl_cons]
    rw [dictGet_mergeList_none (dictUpdate m0 p) l2 key hnd2 h2]
    exact dictGet_dictUpdate_some m0 p key v hp hv
  | cons q l1 ih =>
    simp only [List.cons_append, List.foldl_cons]
    exact ih (dictUpdate m0 q) (fun r hr => h1 r (List.mem_cons_of_mem _ hr))

theorem dictGet_foldl_congr (l : List Dict) (m1 m2 : Dict)
    (hnd : ∀ p ∈ l, (dictKeys p).Nodup)
    (h : ∀ key, dictGet m1 key = dictGet m2 key) (key : String) :
    dictGet (l.foldl dictUpdate m1) key = dictGet (l.foldl dictUpdate m2) key := by
  induction l generalizing m1 m2 with
  | nil => exact h key
  | cons p l ih =>
    simp only [List.foldl_cons]
    apply ih (dictUpdate m1 p) (dictUpdate m2 p)
      (fun q hq => hnd q (List.mem_cons_of_mem _ hq))
    intro k
    have hpnd := hnd p (List.mem_cons_self _ _)
    cases hpk : dictGet p k with
    | some v =>
      rw [dictGet_dictUpdate_some m1 p k v hpnd hpk,
          dictGet_dictUpdate_some m2 p k v hpnd hpk]
    | none =>
      rw [dictGet_dictUpdate_none m1 p k hpnd hpk,
          dictGet_dictUpdate_none m2 p k hpnd hpk]
      exact h k

/-- Key-disjointness of two dicts, as Finalize relies on it across worker
manifests. -/
abbrev KeysDisjoint (p q : Dict) : Prop :=
  ∀ k, k ∈ dictKeys p → k ∉ dictKeys q

theorem keysDisjoint_symm : ∀ {p q : Dict}, KeysDisjoint p q → KeysDisjoint q p := by
  intro p q h k hkq hkp
  exact h k hkp hkq

theorem mergePerm (ps qs : List Dict) (hperm : ps.Perm qs) :
    ∀ (m : Dict), (∀ p ∈ ps, (dictKeys p).Nodup) →
      ps.Pairwise KeysDisjoint → ∀ key,
      dictGet (ps.foldl dictUpdate m) key = dictGet (qs.foldl dictUpdate m) key := by
  induction hperm with
  | nil => intro m _ _ key; rfl
  | cons x hperm ih =>
    intro m hnd hdisj key
    simp only [List.foldl_cons]
    exact ih (dictUpdate m x)
      (fun p hp => hnd p (List.mem_cons_of_mem _ hp))
      ((List.pairwise_cons.mp hdisj).2) key
  | swap x y l =>
    intro m hnd hdisj key
    simp only [List.foldl_cons]
    have hyx : KeysDisjoint y x := (List.pairwise_cons.mp hdisj).1 x
      (List.mem_cons_self _ _)
    have hxnd : (dictKeys x).Nodup := hnd x (by simp)
    have hynd : (dictKeys y).Nodup := hnd y (by simp)
    apply dictGet_foldl_congr l _ _ (fun p hp => hnd p (by simp [hp]))
    intro k
    cases hxk : dictGet x k with
    | some v =>
      have hkx : k ∈ dictKeys x := mem_dictKeys_of_dictGet x k v hxk
      have hky : k ∉ dictKeys y := fun hy => hyx k hy hkx
      have hyk : dictGet y k = none := dictGet_eq_none_of_not_mem y k hky
      rw [dictGet_dictUpdate_some _ x k v hxnd hxk,
          dictGet_dictUpdate_none _ y k hynd hyk,
          dictGet_dictUpdate_some _ x k v hxnd hxk]
    | none =>
      rw [dictGet_dictUpdate_none _ x k hxnd hxk]
      cases hyk : dictGet y k with
      | some w =>
        rw [dictGet_dictUpdate_some _ y k w hynd hyk,
            dictGet_dictUpdate_some _ y k w hynd hyk]
      | none =>
        rw [dictGet_dictUpdate_none _ y k hynd hyk,
            dictGet_dictUpdate_none _ y k hynd hyk,
            dictGet_dictUpdate_none _ x k hxnd hxk]
  | trans h1 _h2 ih1 ih2 =>
    intro m hnd hdisj key
    rw [ih1 m hnd hdisj key]
    apply ih2 m
    · intro p hp
      exact hnd p (h1.mem_iff.mpr hp)
    · exact (h1.pairwise_iff keysDisjoint_symm).mp hdisj

/-! ## Worker and embed-phase lemmas -/

/-- Chunk count of a from-scratch embed of a document list: what the
splitter/embedder produce per document, summed. -/
def totalChunks (env : WorkerEnv) (b : List Doc) : Nat :=
  (b.map (fun d => (env.chunksOf d).length)).sum

theorem embedDocsGo_success (env : WorkerEnv) (b : List Doc) :
    ∀ (c : Option Store) (wm : Dict) (wfile : Option Dict) (t : Nat),
      (∀ d ∈ b, env.fails d = false) →
      (embedDocsGo env b c wm wfile t).2 =
        ((if b.isEmpty then wfile else some (foldDocs wm b)),
         Except.ok (t + totalChunks env b)) := by
  induction b with
  | nil => intro c wm wfile t _; simp [embedDocsGo, totalChunks]
  | cons d b ih =>
    intro c wm wfile t hok
    have hd : env.fails d = false := hok d (List.mem_cons_self _ _)
    simp only [embedDocsGo, hd]
    rw [if_neg (by simp)]
    rw [ih _ _ _ _ (fun x hx => hok x (List.mem_cons_of_mem _ hx))]
    have htot : totalChunks env (d :: b) =
        (env.chunksOf d).length + totalChunks env b := by
      simp [totalChunks]
    cases b with
    | nil =>
      simp only [List.isEmpty_nil, List.isEmpty_cons, if_true]
      rw [if_neg (by simp)]
      refine congrArg₂ Prod.mk rfl ?_
      rw [htot]
      simp [totalChunks]
    | cons x xs =>
      simp only [List.isEmpty_cons]
      rw [if_neg (by simp), if_neg (by simp)]
      refine congrArg₂ Prod.mk rfl ?_
      rw [htot]
      congr 1
      omega

theorem embedDocsGo_snd_indep (env : WorkerEnv) (b : List Doc) :
    ∀ (c c' : Option Store) (wm : Dict) (wfile : Option Dict) (t : Nat),
      (embedDocsGo env b c wm wfile t).2 = (embedDocsGo env b c' wm wfile t).2 := by
  induction b with
  | nil => intro c c' wm wfile t; rfl
  | cons d b ih =>
    intro c c' wm wfile t
    simp only [embedDocsGo]
    by_cases hd : env.fails d
    · simp [hd]
    · simp only [hd, if_false]
      exact ih _ _ _ _ _

theorem writeFile_fresh (wfs : List (String × FileState)) (name : String)
    (content : Dict) (h : name ∉ wfs.map Prod.fst) :
    writeFile wfs name content = wfs ++ [(name, FileState.good content)] := by
  unfold writeFile
  rw [if_neg h]

/-- The outcome `EmbedWorker.embed` reports for one batch, as the phase's
result list sees it — a function of the batch and the environment alone. -/
def batchOutcome (env : WorkerEnv) (bw : List Doc × Nat) :
    Except Unit (Nat × Nat) :=
  match (embedWorker env bw.1 none).2.2 with
  | Except.ok t => Except.ok (bw.2, t)
  | Except.error e => Except.error e

theorem runWorkers_results (env : WorkerEnv) (bws : List (List Doc × Nat)) :
    ∀ (w : World), (runWorkers env bws w).2 = bws.map (batchOutcome env) := by
  induction bws with
  | nil => intro w; rfl
  | cons bw bws ih =>
    intro w
    obtain ⟨batch, wid⟩ := bw
    simp only [runWorkers, List.map_cons]
    rw [ih]
    have hind := embedDocsGo_snd_indep env batch
      (some (Option.getD w.collection [])) (some (Option.getD none []))
      [] none 0
    congr 1
    unfold batchOutcome embedWorker
    have hsnd : (embedDocsGo env batch (some (Option.getD w.collection [])) [] none 0).2.2
        = (embedDocsGo env batch (some (Option.getD none [])) [] none 0).2.2 :=
      congrArg Prod.snd hind
    rw [hsnd]

theorem runWorkers_fs_success (env : WorkerEnv) (bws : List (List Doc × Nat)) :
    ∀ (w : World),
      (∀ bw ∈ bws, ∀ d ∈ bw.1, env.fails d = false) →
      (∀ bw ∈ bws, bw.1 ≠ []) →
      (∀ bw ∈ bws, workerFileName bw.2 ∉ w.fs.workerFiles.map Prod.fst) →
      (bws.map (fun bw => workerFileName bw.2)).Nodup →
      (runWorkers env bws w).1.fs.manifestFile = w.fs.manifestFile ∧
      (runWorkers env bws w).1.fs.workerFiles =
        w.fs.workerFiles ++
          bws.map (fun bw =>
            (workerFileName bw.2, FileState.good (dictOfDocs bw.1))) := by
  induction bws with
  | nil => intro w _ _ _ _; simp [runWorkers]
  | cons bw bws ih =>
    intro w hok hne hfresh hnodup
    obtain ⟨batch, wid⟩ := bw
    have hbne : batch ≠ [] := hne _ (List.mem_cons_self _ _)
    have hbok : ∀ d ∈ batch, env.fails d = false :=
      hok _ (List.mem_cons_self _ _)
    have hw2 := embedDocsGo_success env batch
      (some (Option.getD w.collection [])) [] none 0 hbok
    simp only [runWorkers]
    have hemb : (embedWorker env batch w.collection).2 =
        (some (dictOfDocs batch), Except.ok (totalChunks env batch)) := by
      unfold embedWorker
      rw [hw2]
      have : batch.isEmpty = false := by
        cases batch with
        | nil => exact absurd rfl hbne
        | cons x xs => rfl
      rw [this]
      simp [dictOfDocs]
    rw [hemb]
    simp only
    have hwname : workerFileName wid ∉ w.fs.workerFiles.map Prod.fst :=
      hfresh _ (List.mem_cons_self _ _)
    rw [writeFile_fresh _ _ _ hwname]
    simp only [List.map_cons, List.nodup_cons] at hnodup
    set w2 : World :=
      { fs := { manifestFile := w.fs.manifestFile,
                workerFiles := w.fs.workerFiles ++
                  [(workerFileName wid, FileState.good (dictOfDocs batch))] },
        collection := (embedWorker env batch w.collection).1 } with hw2def
    have hih := ih w2
      (fun b hb => hok b (List.mem_cons_of_mem _ hb))
      (fun b hb => hne b (List.mem_cons_of_mem _ hb))
      (by
        intro b hb
        rw [hw2def]
        simp only [List.map_append, List.mem_append]
        push_neg
        constructor
        · exact hfresh b (List.mem_cons_of_mem _ hb)
        · simp only [List.map_cons, List.map_nil, List.mem_singleton]
          intro hcontra
          exact hnodup.1 (hcontra ▸ List.mem_map_of_mem _ hb))
      hnodup.2
    constructor
    · exact hih.1
    · rw [hih.2, hw2def]
      simp

/-! ## Further helper lemmas -/

theorem embedDocsGo_fail (env : WorkerEnv) (d : Doc) (post : List Doc)
    (hd : env.fails d = true) (pre : List Doc) :
    ∀ (c : Option Store) (wm : Dict) (wfile : Option Dict) (t : Nat),
      (∀ x ∈ pre, env.fails x = false) →
      (embedDocsGo env (pre ++ d :: post) c wm wfile t).2 =
        ((if pre.isEmpty then wfile else some (foldDocs wm pre)),
         Except.error ()) := by
  induction pre with
  | nil =>
    intro c wm wfile t _
    simp [embedDocsGo, hd]
  | cons x pre ih =>
    intro c wm wfile t hok
    have hx : env.fails x = false := hok x (List.mem_cons_self _ _)
    simp only [List.cons_append, embedDocsGo, hx, List.append_eq]
    rw [if_neg (by simp)]
    rw [ih _ _ _ _ (fun y hy => hok y (List.mem_cons_of_mem _ hy))]
    cases pre with
    | nil =>
      simp [foldDocs]
    | cons y ys =>
      simp only [List.isEmpty_cons]
      rw [if_neg (by simp), if_neg (by simp)]
      rfl

theorem embedTotals_foldl (rs : List (Except Unit (Nat × Nat))) :
    ∀ (a b : Nat),
      rs.foldl
        (fun acc r =>
          match r with
          | Except.error _ => (acc.1, acc.2 + 1)
          | Except.ok pr => (acc.1 + pr.2, acc.2)) (a, b)
      = (a + (rs.filterMap (fun r =>
            match r with
            | Except.ok pr => some pr.2
            | Except.error _ => none)).sum,
         b + (rs.filter (fun r =>
            match r with
            | Except.ok _ => false
            | Except.error _ => true)).length) := by
  induction rs with
  | nil => intro a b; simp
  | cons r rs ih =>
    intro a b
    cases r with
    | ok pr =>
      simp only [List.foldl_cons, List.filterMap_cons, List.filter_cons]
      rw [ih, List.sum_cons]
      refine congrArg₂ Prod.mk ?_ rfl
      omega
    | error e =>
      simp only [List.foldl_cons, List.filterMap_cons, List.filter_cons]
      rw [ih]
      refine congrArg₂ Prod.mk rfl ?_
      simp only [if_true, List.length_cons]
      omega

theorem filterMap_goodContent_zip (ns : List String) (ps : List Dict)
    (h : ns.length = ps.length) :
    ((ns.zip (ps.map FileState.good)).filterMap goodContent) = ps := by
  induction ns generalizing ps with
  | nil =>
    cases ps with
    | nil => rfl
    | cons p ps => simp at h
  | cons nm ns ih =>
    cases ps with
    | nil => simp at h
    | cons p ps =>
      simp only [List.map_cons, List.zip_cons_cons, List.filterMap_cons]
      rw [ih ps (by simpa using h)]
      rfl

/-! ## Test fixtures for the concrete theorems -/

def exDoc : Doc := { name := "a.txt", mtimeNs := 1, size := 5 }

def exDocB : Doc := { name := "b.txt", mtimeNs := 2, size := 3 }

/-- An environment whose splitter/embedder yields exactly one chunk per
document and where no document fails. -/
def exEnv : WorkerEnv :=
  { chunksOf := fun d => [d.name ++ ":0"], fails := fun _ => false }

/-- An environment where exactly `b.txt` raises during processing. -/
def exFailEnv : WorkerEnv :=
  { chunksOf := fun d => [d.name ++ ":0"],
    fails := fun d => decide (d.name = "b.txt") }

/-- The pipeline with the production worker count `N_WORKERS = 10`. -/
def exPipeline : PipelineEnv := { env := exEnv, nWorkers := 10 }

/-- A fresh volume: no manifest, no worker files, no collection. -/
def emptyWorld : World :=
  { fs := { manifestFile := FileState.absent, workerFiles := [] },
    collection := none }

def qEnvRecvFail : QueryEnv := { ensureSendOk := fun _ => true, recvOk := false }

def qEnvRetryOk : QueryEnv :=
  { ensureSendOk := fun a => decide (a = 1), recvOk := true }

/-! ## Claim theorems -/

/-- Claim C1 (the code contradicts it): after `reindex(force=True)` over one
present document that embeds to one chunk, the canonical manifest should
contain exactly that document and the collection count should be `1`; the
code instead reports `Indexed 0 chunks from 0 file(s)`, leaves the manifest
empty and the collection dropped, because `finalize_index(force=True)` runs
`_reset_collection` *after* the embed phase: the `manifest*.json` glob
deletes the partial manifest this run's worker just wrote, and
`delete_collection` discards the chunks it just upserted. -/
theorem C1_forced_rebuild_discards_work :
    (reindex exPipeline true (some [exDoc]) emptyWorld).2
        = ReindexOutcome.summary 0 0 ∧
    (reindex exPipeline true (some [exDoc]) emptyWorld).1.fs.manifestFile
        = FileState.good [] ∧
    (reindex exPipeline true (some [exDoc]) emptyWorld).1.collection = none ∧
    (embedWorker exEnv [exDoc] none).2.2 = Except.ok 1 ∧
    totalChunks exEnv [exDoc] = 1 := by
  refine ⟨?_, ?_, ?_, ?_, ?_⟩ <;> rfl

/-- Claim C2 counterexample: with a healthy sandbox whose response read
fails, the exchange fails, yet the client performs no reset and makes no
second attempt at the sequence — refuting "the client resets … and retries
the whole [ensure-connect-send-receive] sequence exactly once" on this
failure. -/
theorem C2_counterexample :
    (queryRun qEnvRecvFail).2 = false ∧
    QStep.reset ∉ (queryRun qEnvRecvFail).1 ∧
    ((queryRun qEnvRecvFail).1.filter
        (fun s => match s with | QStep.recv _ => true | _ => false)).length = 1 := by
  refine ⟨rfl, by decide, rfl⟩

/-- Claim C2 as amended: only the ensure-connect-send prefix is retried —
once, with a reset before the retry, and a second prefix failure propagates
after a final reset; the response read happens at most once, only after a
successful send, outside the retried region, and its failure propagates
with no reset and no retry. -/
theorem C2_query_retry (env : QueryEnv) :
    (env.ensureSendOk 0 = true →
      queryRun env = ([QStep.ensureSend 0 true, QStep.recv env.recvOk],
        env.recvOk)) ∧
    (env.ensureSendOk 0 = false → env.ensureSendOk 1 = true →
      queryRun env = ([QStep.ensureSend 0 false, QStep.reset,
        QStep.ensureSend 1 true, QStep.recv env.recvOk], env.recvOk)) ∧
    (env.ensureSendOk 0 = false → env.ensureSendOk 1 = false →
      queryRun env = ([QStep.ensureSend 0 false, QStep.reset,
        QStep.ensureSend 1 false, QStep.reset], false)) := by
  refine ⟨?_, ?_, ?_⟩
  · intro h0
    simp [queryRun, sendLoop, h0]
  · intro h0 h1
    simp [queryRun, sendLoop, h0, h1]
  · intro h0 h1
    simp [queryRun, sendLoop, h0, h1]

/-- Witness for C2_query_retry at a concrete environment where the first
ensure+send fails and the retry succeeds. -/
theorem C2_query_retry_witness :
    qEnvRetryOk.ensureSendOk 0 = false ∧ qEnvRetryOk.ensureSendOk 1 = true ∧
    queryRun qEnvRetryOk = ([QStep.ensureSend 0 false, QStep.reset,
      QStep.ensureSend 1 true, QStep.recv true], true) :=
  ⟨by decide, by decide,
    (C2_query_retry qEnvRetryOk).2.1 (by decide) (by decide)⟩

/-- Claim C4 counterexample: with the production worker count `N = 10` and a
non-empty document list of length 5, the Embed Phase creates 5 batches, not
`N = 10` — refuting "partitions the list into N … batches" read literally. -/
theorem C4_counterexample :
    (makeBatches 10 ["a", "b", "c", "d", "e"]).1.length = 5 ∧ (5 : Nat) ≠ 10 := by
  exact ⟨rfl, by decide⟩

/-- Claim C4 as amended: for a non-empty list and worker count `N > 0` the
phase partitions the list into at most `N` contiguous batches (their
concatenation is the original list) of at most `ceil(total/N)` documents
each, none empty, tags them with the distinct worker identities `0..k-1`,
and distinct identities always give distinct partial-manifest filenames. -/
theorem C4_batch_partition {α : Type} (n : Nat) (files : List α)
    (hn : 0 < n) (hne : files ≠ []) :
    (makeBatches n files).1.flatten = files ∧
    (∀ b ∈ (makeBatches n files).1,
      b.length ≤ ceilDiv files.length n ∧ b ≠ []) ∧
    (makeBatches n files).1.length ≤ n ∧
    (makeBatches n files).2 = List.range (makeBatches n files).1.length ∧
    (makeBatches n files).2.Nodup ∧
    (∀ i j : Nat, i ≠ j → workerFileName i ≠ workerFileName j) := by
  have hlen : 0 < files.length := List.length_pos.mpr hne
  have hcs : 0 < ceilDiv files.length n := by
    unfold ceilDiv
    apply Nat.div_pos
    · omega
    · exact hn
  refine ⟨?_, ?_, ?_, rfl, ?_, ?_⟩
  · exact sliceBatches_flatten _ files hcs
  · intro b hb
    exact sliceBatches_mem _ files b hb
  · show (sliceBatches (ceilDiv files.length n) files).length ≤ n
    rw [sliceBatches_length _ files hcs hne]
    exact ceilDiv_ceilDiv_le files.length n hn hlen
  · exact List.nodup_range _
  · intro i j hij hcontra
    exact hij (workerFileName_injective i j hcontra)

/-- Witness for C4_batch_partition at 5 files and 4 workers. -/
theorem C4_batch_partition_witness :
    ((0 : Nat) < 4 ∧ (["a", "b", "c", "d", "e"] : List String) ≠ []) ∧
    (makeBatches 4 ["a", "b", "c", "d", "e"]).1.flatten
        = ["a", "b", "c", "d", "e"] ∧
    (makeBatches 4 ["a", "b", "c", "d", "e"]).1.length ≤ 4 :=
  ⟨⟨by decide, by decide⟩,
   (C4_batch_partition 4 ["a", "b", "c", "d", "e"] (by decide) (by decide)).1,
   (C4_batch_partition 4 ["a", "b", "c", "d", "e"] (by decide) (by decide)).2.2.1⟩

/-- Claim C5: every dispatched batch produces a result that is a function of
that batch and the environment alone — a raising batch yields an error
result without cancelling or affecting any sibling batch — and the phase
consumes all results without raising: its success total is exactly the sum
of the successful batches' chunk counts, with failed batches reported (and
counted) separately and contributing nothing. -/
theorem C5_batch_failure_isolation (env : WorkerEnv)
    (bws : List (List Doc × Nat)) (w : World) :
    (runWorkers env bws w).2 = bws.map (batchOutcome env) ∧
    embedTotals (runWorkers env bws w).2 =
      (((runWorkers env bws w).2.filterMap (fun r =>
          match r with
          | Except.ok pr => some pr.2
          | Except.error _ => none)).sum,
       ((runWorkers env bws w).2.filter (fun r =>
          match r with
          | Except.ok _ => false
          | Except.error _ => true)).length) := by
  refine ⟨runWorkers_results env bws w, ?_⟩
  unfold embedTotals
  rw [embedTotals_foldl]
  simp

/-- Claim C6: Scan returns, when not forced, exactly the files whose current
fingerprint differs from their manifest entry or that have no manifest
entry; when forced it returns every document; and a missing document
directory yields the empty list (the function is total — nothing raises). -/
theorem C6_scan_characterization :
    (∀ (force : Bool) (mf : FileState), scanPhase force none mf = []) ∧
    (∀ (ds : List Doc) (mf : FileState) (d : Doc),
      d ∈ scanPhase false (some ds) mf ↔
        d ∈ ds ∧ dictGet (loadManifest mf) d.name ≠ some (fingerprint d)) ∧
    (∀ (ds : List Doc) (mf : FileState), scanPhase true (some ds) mf = ds) := by
  refine ⟨fun force mf => rfl, ?_, ?_⟩
  · intro ds mf d
    simp [scanPhase, List.mem_filter]
  · intro ds mf
    simp [scanPhase]

/-- Claim C8: when processing the `k`-th document of a worker's list raises,
the invocation raises to its caller, the later documents are never recorded,
and the worker's partial-manifest file still holds exactly the entries of
the documents completed before the failure: one entry per completed
document with its fingerprint, and no entry for any other name (for a first-
document failure nothing was ever written). -/
theorem C8_worker_failure_preserves_manifest (env : WorkerEnv)
    (pre post : List Doc) (d : Doc) (c : Option Store)
    (hpre : ∀ x ∈ pre, env.fails x = false) (hd : env.fails d = true) :
    (embedWorker env (pre ++ d :: post) c).2.2 = Except.error () ∧
    (embedWorker env (pre ++ d :: post) c).2.1 =
      (if pre.isEmpty then none else some (dictOfDocs pre)) ∧
    ((pre.map Doc.name).Nodup →
      ∀ x ∈ pre, dictGet (dictOfDocs pre) x.name = some (fingerprint x)) ∧
    (∀ key, key ∉ pre.map Doc.name → dictGet (dictOfDocs pre) key = none) := by
  have h := embedDocsGo_fail env d post hd pre
    (some (Option.getD c [])) [] none 0 hpre
  refine ⟨?_, ?_, ?_, ?_⟩
  · exact congrArg Prod.snd h
  · have h1 := congrArg Prod.fst h
    simpa [embedWorker, dictOfDocs] using h1
  · intro hnd x hx
    exact dictOfDocs_get_mem pre x hx hnd
  · intro key hk
    exact dictOfDocs_get_not_mem pre key hk

/-- Witness for C8_worker_failure_preserves_manifest: a two-document batch
whose second document raises keeps the first document's entry on disk. -/
theorem C8_worker_failure_witness :
    ((∀ x ∈ [exDoc], exFailEnv.fails x = false) ∧ exFailEnv.fails exDocB = true) ∧
    (embedWorker exFailEnv ([exDoc] ++ exDocB :: []) none).2.2
        = Except.error () ∧
    (embedWorker exFailEnv ([exDoc] ++ exDocB :: []) none).2.1
        = (if ([exDoc] : List Doc).isEmpty then none else some (dictOfDocs [exDoc])) :=
  ⟨⟨by decide, by decide⟩,
   (C8_worker_failure_preserves_manifest exFailEnv [exDoc] [] exDocB none
      (by decide) (by decide)).1,
   (C8_worker_failure_preserves_manifest exFailEnv [exDoc] [] exDocB none
      (by decide) (by decide)).2.1⟩

/-- Claim C9: for the response text
`"Result ready.\n[OUTPUT_FILE:/out/a.png]\n[OUTPUT_FILE:/out/b.csv]"`
(delivered as stdout lines followed by the sentinel line) the client
returns display text `"Result ready."` with the markers stripped, and the
output-file list `["/out/a.png", "/out/b.csv"]` in order of appearance,
separate from the display text. -/
theorem C9_output_file_extraction :
    readResponse [String.toList "Result ready.\n",
        String.toList "[OUTPUT_FILE:/out/a.png]\n",
        String.toList "[OUTPUT_FILE:/out/b.csv]\n",
        String.toList "---END_TURN---\n"] =
      { text := "Result ready.", output_files := ["/out/a.png", "/out/b.csv"] } := by
  rfl

/-- Claim C10: the Finalize merge is total in the file contents: a missing
or unparsable canonical manifest loads as the empty mapping; the merged
result overlays exactly the worker files that parse, in glob order; a
worker file that fails to parse is skipped and kept on disk (unlike parsed
files, which are deleted); and the merged manifest is persisted. -/
theorem C10_merge_robustness :
    loadManifest FileState.absent = [] ∧
    loadManifest FileState.corrupt = [] ∧
    (∀ fs : FS,
      (mergeWorkerManifests fs).manifest =
        (fs.workerFiles.filterMap goodContent).foldl dictUpdate
          (loadManifest fs.manifestFile) ∧
      (mergeWorkerManifests fs).fsAfter.workerFiles =
        fs.workerFiles.filter (fun wf => !isGoodFile wf.2) ∧
      (mergeWorkerManifests fs).fsAfter.manifestFile =
        FileState.good (mergeWorkerManifests fs).manifest) := by
  refine ⟨rfl, rfl, ?_⟩
  intro fs
  rw [mergeWorkerManifests_eq]
  exact ⟨rfl, rfl, rfl⟩

/-- Claim C7: merging a collection of partial manifests with pairwise
disjoint key sets onto the canonical manifest yields the same mapping in
any permutation of merge order (stated for any two permuted orders, so in
particular for all six orders of three partials). -/
theorem C7_merge_order_immaterial (mf : FileState) (ns1 ns2 : List String)
    (ps qs : List Dict)
    (hl1 : ns1.length = ps.length) (hl2 : ns2.length = qs.length)
    (hperm : ps.Perm qs)
    (hnd : ∀ p ∈ ps, (dictKeys p).Nodup)
    (hdisj : ps.Pairwise KeysDisjoint) :
    ∀ key,
      dictGet (mergeWorkerManifests
        { manifestFile := mf,
          workerFiles := ns1.zip (ps.map FileState.good) }).manifest key =
      dictGet (mergeWorkerManifests
        { manifestFile := mf,
          workerFiles := ns2.zip (qs.map FileState.good) }).manifest key := by
  intro key
  rw [mergeWorkerManifests_eq, mergeWorkerManifests_eq]
  dsimp only
  rw [filterMap_goodContent_zip ns1 ps hl1, filterMap_goodContent_zip ns2 qs hl2]
  exact mergePerm ps qs hperm (loadManifest mf) hnd hdisj key

/-- Witness for C7_merge_order_immaterial: three concrete disjoint partial
manifests merged in two different orders agree on a key. -/
theorem C7_merge_order_immaterial_witness :
    (([[("a", "1")], [("b", "2")], [("c", "3")]] : List Dict).Perm
        [[("c", "3")], [("a", "1")], [("b", "2")]] ∧
      (∀ p ∈ ([[("a", "1")], [("b", "2")], [("c", "3")]] : List Dict),
        (dictKeys p).Nodup) ∧
      ([[("a", "1")], [("b", "2")], [("c", "3")]] : List Dict).Pairwise
        KeysDisjoint) ∧
    dictGet (mergeWorkerManifests
      { manifestFile := FileState.absent,
        workerFiles := ["manifest-worker-0.json", "manifest-worker-1.json",
            "manifest-worker-2.json"].zip
          (([[("a", "1")], [("b", "2")], [("c", "3")]] : List Dict).map
            FileState.good) }).manifest "a" =
    dictGet (mergeWorkerManifests
      { manifestFile := FileState.absent,
        workerFiles := ["manifest-worker-0.json", "manifest-worker-1.json",
            "manifest-worker-2.json"].zip
          (([[("c", "3")], [("a", "1")], [("b", "2")]] : List Dict).map
            FileState.good) }).manifest "a" :=
  ⟨⟨by decide, by decide, by decide⟩,
   C7_merge_order_immaterial FileState.absent
     ["manifest-worker-0.json", "manifest-worker-1.json", "manifest-worker-2.json"]
     ["manifest-worker-0.json", "manifest-worker-1.json", "manifest-worker-2.json"]
     [[("a", "1")], [("b", "2")], [("c", "3")]]
     [[("c", "3")], [("a", "1")], [("b", "2")]]
     (by decide) (by decide) (by decide) (by decide) (by decide) "a"⟩

/-! ## Idempotence machinery (claim C3) -/

theorem dictGet_merge_batches_mem (batches : List (List Doc)) :
    ∀ (m0 : Dict) (d : Doc),
      (batches.flatten.map Doc.name).Nodup → d ∈ batches.flatten →
      dictGet ((batches.map dictOfDocs).foldl dictUpdate m0) d.name
        = some (fingerprint d) := by
  induction batches with
  | nil => intro m0 d _ hd; simp at hd
  | cons b bs ih =>
    intro m0 d hnod hd
    simp only [List.flatten_cons, List.map_append] at hnod
    have hb_nd : (b.map Doc.name).Nodup := hnod.of_append_left
    have hrest_nd : (bs.flatten.map Doc.name).Nodup := hnod.of_append_right
    have hdisj := List.disjoint_of_nodup_append hnod
    simp only [List.map_cons, List.foldl_cons]
    simp only [List.flatten_cons, List.mem_append] at hd
    rcases hd with hd | hd
    · have hnone : ∀ q ∈ bs.map dictOfDocs, dictGet q d.name = none := by
        intro q hq
        obtain ⟨b', hb', rfl⟩ := List.mem_map.mp hq
        apply dictOfDocs_get_not_mem
        intro hmem
        obtain ⟨x, hx, hxname⟩ := List.mem_map.mp hmem
        have hxflat : x ∈ bs.flatten := List.mem_flatten.mpr ⟨b', hb', hx⟩
        exact hdisj (List.mem_map_of_mem Doc.name hd)
          (hxname ▸ List.mem_map_of_mem Doc.name hxflat)
      rw [dictGet_mergeList_none _ _ _
            (by
              intro q hq
              obtain ⟨b', _, rfl⟩ := List.mem_map.mp hq
              exact dictOfDocs_keys_nodup b')
            hnone]
      exact dictGet_dictUpdate_some m0 (dictOfDocs b) d.name (fingerprint d)
        (dictOfDocs_keys_nodup b) (dictOfDocs_get_mem b d hd hb_nd)
    · exact ih (dictUpdate m0 (dictOfDocs b)) d hrest_nd hd

theorem dictGet_merge_batches_not_mem (batches : List (List Doc))
    (m0 : Dict) (key : String)
    (hk : key ∉ batches.flatten.map Doc.name) :
    dictGet ((batches.map dictOfDocs).foldl dictUpdate m0) key
      = dictGet m0 key := by
  apply dictGet_mergeList_none
  · intro q hq
    obtain ⟨b', _, rfl⟩ := List.mem_map.mp hq
    exact dictOfDocs_keys_nodup b'
  · intro q hq
    obtain ⟨b', hb', rfl⟩ := List.mem_map.mp hq
    apply dictOfDocs_get_not_mem
    intro hmem
    apply hk
    obtain ⟨x, hx, hxname⟩ := List.mem_map.mp hmem
    exact hxname ▸ List.mem_map_of_mem Doc.name
      (List.mem_flatten.mpr ⟨b', hb', hx⟩)

theorem reindex_of_scan_nil (pe : PipelineEnv) (force : Bool)
    (docs : Option (List Doc)) (w : World)
    (h : scanPhase force docs w.fs.manifestFile = []) :
    reindex pe force docs w = (w, emptyResult docs w.fs.manifestFile) := by
  unfold reindex
  dsimp only
  rw [if_pos h]

theorem reindex_of_scan_ne (pe : PipelineEnv) (force : Bool)
    (docs : Option (List Doc)) (w : World)
    (h : scanPhase force docs w.fs.manifestFile ≠ []) :
    reindex pe force docs w =
      ((finalize_index force
          (runWorkers pe.env
            ((makeBatches pe.nWorkers (scanPhase force docs w.fs.manifestFile)).1.zip
              (makeBatches pe.nWorkers (scanPhase force docs w.fs.manifestFile)).2)
            w).1).world,
       ReindexOutcome.summary
         (finalize_index force
           (runWorkers pe.env
             ((makeBatches pe.nWorkers (scanPhase force docs w.fs.manifestFile)).1.zip
               (makeBatches pe.nWorkers (scanPhase force docs w.fs.manifestFile)).2)
             w).1).total
         (finalize_index force
           (runWorkers pe.env
             ((makeBatches pe.nWorkers (scanPhase force docs w.fs.manifestFile)).1.zip
               (makeBatches pe.nWorkers (scanPhase force docs w.fs.manifestFile)).2)
             w).1).manifest.length) := by
  unfold reindex
  dsimp only
  rw [if_neg h]

/-- Claim C3: a full (unforced) pipeline run whose workers all succeed,
followed immediately by a second run with no document changes, leaves the
second run's Scan with an empty work list, and the second run changes
nothing: the manifest file and the chunk collection are exactly those the
first run left (the second run returns before embedding or finalizing). -/
theorem C3_pipeline_idempotent (ve : WorkerEnv) (n : Nat) (ds : List Doc)
    (w : World)
    (hn : 0 < n)
    (hnames : (ds.map Doc.name).Nodup)
    (hok : ∀ d ∈ ds, ve.fails d = false)
    (hwf : w.fs.workerFiles = []) :
    scanPhase false (some ds)
        (reindex ⟨ve, n⟩ false (some ds) w).1.fs.manifestFile = [] ∧
    (reindex ⟨ve, n⟩ false (some ds)
        (reindex ⟨ve, n⟩ false (some ds) w).1).1 =
      (reindex ⟨ve, n⟩ false (some ds) w).1 := by
  by_cases hf : scanPhase false (some ds) w.fs.manifestFile = []
  · have hr := reindex_of_scan_nil ⟨ve, n⟩ false (some ds) w hf
    rw [hr]
    exact ⟨hf, by rw [reindex_of_scan_nil ⟨ve, n⟩ false (some ds) w hf]⟩
  · -- First run does real work; show every present document ends up in the
    -- merged manifest with its current fingerprint.
    have hr := reindex_of_scan_ne ⟨ve, n⟩ false (some ds) w hf
    have hfmem : ∀ d, d ∈ scanPhase false (some ds) w.fs.manifestFile → d ∈ ds := by
      intro d hd
      exact (List.mem_filter.mp hd).1
    have hlenpos : 0 < (scanPhase false (some ds) w.fs.manifestFile).length :=
      List.length_pos.mpr hf
    have hcs : 0 < ceilDiv (scanPhase false (some ds) w.fs.manifestFile).length n := by
      unfold ceilDiv
      apply Nat.div_pos
      · omega
      · exact hn
    have hflat :
        (makeBatches n (scanPhase false (some ds) w.fs.manifestFile)).1.flatten
          = scanPhase false (some ds) w.fs.manifestFile :=
      sliceBatches_flatten _ _ hcs
    have hfnames : ((scanPhase false (some ds) w.fs.manifestFile).map Doc.name).Nodup := by
      have hsub : (scanPhase false (some ds) w.fs.manifestFile).Sublist ds :=
        List.filter_sublist ds
      exact hnames.sublist (hsub.map Doc.name)
    have hflatnames :
        ((makeBatches n (scanPhase false (some ds) w.fs.manifestFile)).1.flatten.map
            Doc.name).Nodup := by
      rw [hflat]; exact hfnames
    -- the batch/id pair list dispatched to the workers
    have hlens :
        (makeBatches n (scanPhase false (some ds) w.fs.manifestFile)).1.length =
          (makeBatches n (scanPhase false (some ds) w.fs.manifestFile)).2.length := by
      show _ = (List.range _).length
      rw [List.length_range]
      rfl
    have hok' : ∀ bw ∈ (makeBatches n (scanPhase false (some ds) w.fs.manifestFile)).1.zip
          (makeBatches n (scanPhase false (some ds) w.fs.manifestFile)).2,
        ∀ d ∈ bw.1, ve.fails d = false := by
      intro bw hbw d hd
      have hb := (List.of_mem_zip hbw).1
      have : d ∈ (makeBatches n (scanPhase false (some ds) w.fs.manifestFile)).1.flatten :=
        List.mem_flatten.mpr ⟨bw.1, hb, hd⟩
      rw [hflat] at this
      exact hok d (hfmem d this)
    have hne' : ∀ bw ∈ (makeBatches n (scanPhase false (some ds) w.fs.manifestFile)).1.zip
          (makeBatches n (scanPhase false (some ds) w.fs.manifestFile)).2,
        bw.1 ≠ [] := by
      intro bw hbw
      exact (sliceBatches_mem _ _ bw.1 (List.of_mem_zip hbw).1).2
    have hfresh' : ∀ bw ∈ (makeBatches n (scanPhase false (some ds) w.fs.manifestFile)).1.zip
          (makeBatches n (scanPhase false (some ds) w.fs.manifestFile)).2,
        workerFileName bw.2 ∉ w.fs.workerFiles.map Prod.fst := by
      intro bw _
      rw [hwf]
      simp
    have hnodup' : (((makeBatches n (scanPhase false (some ds) w.fs.manifestFile)).1.zip
          (makeBatches n (scanPhase false (some ds) w.fs.manifestFile)).2).map
            (fun bw => workerFileName bw.2)).Nodup := by
      have hsnd : ((makeBatches n (scanPhase false (some ds) w.fs.manifestFile)).1.zip
            (makeBatches n (scanPhase false (some ds) w.fs.manifestFile)).2).map Prod.snd
          = (makeBatches n (scanPhase false (some ds) w.fs.manifestFile)).2 :=
        List.map_snd_zip _ _ (by rw [hlens])
      have hcomp : (((makeBatches n (scanPhase false (some ds) w.fs.manifestFile)).1.zip
            (makeBatches n (scanPhase false (some ds) w.fs.manifestFile)).2).map
              (fun bw => workerFileName bw.2))
          = (((makeBatches n (scanPhase false (some ds) w.fs.manifestFile)).1.zip
            (makeBatches n (scanPhase false (some ds) w.fs.manifestFile)).2).map
              Prod.snd).map workerFileName := by
        rw [List.map_map]
        rfl
      rw [hcomp, hsnd]
      show ((List.range _).map workerFileName).Nodup
      exact (List.nodup_range _).map
        (fun a b h => workerFileName_injective a b h)
    have hrw := runWorkers_fs_success ve
      ((makeBatches n (scanPhase false (some ds) w.fs.manifestFile)).1.zip
        (makeBatches n (scanPhase false (some ds) w.fs.manifestFile)).2)
      w hok' hne' hfresh' hnodup'
    -- contents of the merged manifest
    have hfiles_eq :
        (((makeBatches n (scanPhase false (some ds) w.fs.manifestFile)).1.zip
            (makeBatches n (scanPhase false (some ds) w.fs.manifestFile)).2).map
              (fun bw => (workerFileName bw.2, FileState.good (dictOfDocs bw.1)))).filterMap
            goodContent
          = (makeBatches n (scanPhase false (some ds) w.fs.manifestFile)).1.map
              dictOfDocs := by
      rw [List.filterMap_map]
      have hfst : ((makeBatches n (scanPhase false (some ds) w.fs.manifestFile)).1.zip
            (makeBatches n (scanPhase false (some ds) w.fs.manifestFile)).2).map Prod.fst
          = (makeBatches n (scanPhase false (some ds) w.fs.manifestFile)).1 :=
        List.map_fst_zip _ _ (by rw [hlens])
      have : (goodContent ∘ fun bw : List Doc × Nat =>
            (workerFileName bw.2, FileState.good (dictOfDocs bw.1)))
          = fun bw : List Doc × Nat => some (dictOfDocs bw.1) := by
        funext bw
        rfl
      rw [this]
      have hcomp2 : (((makeBatches n (scanPhase false (some ds) w.fs.manifestFile)).1.zip
            (makeBatches n (scanPhase false (some ds) w.fs.manifestFile)).2).filterMap
              (fun bw : List Doc × Nat => some (dictOfDocs bw.1)))
          = (((makeBatches n (scanPhase false (some ds) w.fs.manifestFile)).1.zip
            (makeBatches n (scanPhase false (some ds) w.fs.manifestFile)).2).map
              (fun bw : List Doc × Nat => dictOfDocs bw.1)) := by
        rw [show (fun bw : List Doc × Nat => some (dictOfDocs bw.1))
              = (some ∘ fun bw : List Doc × Nat => dictOfDocs bw.1) from rfl,
            List.filterMap_eq_map]
      rw [hcomp2,
          show (fun bw : List Doc × Nat => dictOfDocs bw.1)
            = (dictOfDocs ∘ Prod.fst) from rfl,
          ← List.map_map, hfst]
  -- assemble the world after the first run
    have hworld1 : (reindex ⟨ve, n⟩ false (some ds) w).1.fs.manifestFile =
        FileState.good
          ((((makeBatches n (scanPhase false (some ds) w.fs.manifestFile)).1.map
              dictOfDocs)).foldl dictUpdate (loadManifest w.fs.manifestFile)) := by
      rw [hr]
      show (finalize_index false _).world.fs.manifestFile = _
      unfold finalize_index
      dsimp only
      rw [if_neg (by simp)]
      rw [mergeWorkerManifests_eq]
      dsimp only
      rw [hrw.2, hwf, List.nil_append, hfiles_eq, hrw.1]
    -- every present document is in the merged manifest with its fingerprint
    have hM : ∀ d ∈ ds,
        dictGet ((((makeBatches n (scanPhase false (some ds) w.fs.manifestFile)).1.map
            dictOfDocs)).foldl dictUpdate (loadManifest w.fs.manifestFile)) d.name
          = some (fingerprint d) := by
      intro d hd
      by_cases hdf : d ∈ scanPhase false (some ds) w.fs.manifestFile
      · exact dictGet_merge_batches_mem _ _ d hflatnames (by rw [hflat]; exact hdf)
      · have hnotin : d.name ∉
            (makeBatches n (scanPhase false (some ds) w.fs.manifestFile)).1.flatten.map
              Doc.name := by
          rw [hflat]
          intro hmem
          obtain ⟨x, hx, hxname⟩ := List.mem_map.mp hmem
          have hxds : x ∈ ds := hfmem x hx
          have : x = d := List.inj_on_of_nodup_map hnames hxds hd hxname
          exact hdf (this ▸ hx)
        rw [dictGet_merge_batches_not_mem _ _ _ hnotin]
        -- d was skipped by Scan, so its manifest entry already matches
        unfold scanPhase at hdf
        by_contra hne2
        apply hdf
        apply List.mem_filter.mpr
        refine ⟨hd, ?_⟩
        simp only [Bool.false_or, decide_eq_true_eq]
        exact hne2
    -- the second Scan is empty
    have hscan2 : scanPhase false (some ds)
        (reindex ⟨ve, n⟩ false (some ds) w).1.fs.manifestFile = [] := by
      rw [hworld1]
      unfold scanPhase
      apply List.filter_eq_nil_iff.mpr
      intro d hd
      simp only [Bool.false_or, decide_eq_true_eq, loadManifest]
      intro hcontra
      exact hcontra (hM d hd)
    refine ⟨hscan2, ?_⟩
    rw [reindex_of_scan_nil ⟨ve, n⟩ false (some ds)
      (reindex ⟨ve, n⟩ false (some ds) w).1 hscan2]

/-- Witness for C3_pipeline_idempotent: one document, a fresh volume, and
the production worker count. -/
theorem C3_pipeline_idempotent_witness :
    ((0 : Nat) < 10 ∧ ([exDoc].map Doc.name).Nodup ∧
      (∀ d ∈ [exDoc], exEnv.fails d = false) ∧
      emptyWorld.fs.workerFiles = []) ∧
    scanPhase false (some [exDoc])
        (reindex ⟨exEnv, 10⟩ false (some [exDoc]) emptyWorld).1.fs.manifestFile = [] :=
  ⟨⟨by decide, by decide, by decide, rfl⟩,
   (C3_pipeline_idempotent exEnv 10 [exDoc] emptyWorld
     (by decide) (by decide) (by decide) rfl).1⟩

end VibeTrain
